import Mathlib

/-!
Shallow embedding of the Voltage-Fizz order core (`src/main.py`):
the device relay (`send_to_esp`), the durable order-history store
(`load_orders` / `save_orders` over `orders.json`), the recommendation
computation (`get_top_drinks`, built on `collections.Counter` and
`Counter.most_common`), the pydantic `OrderItem` model, and the
`/checkout` and `/recommendations` handlers.

The durable state of the store is `Option (List HistEntry)`: `none` means
the file `orders.json` does not exist yet, `some l` means it holds the
JSON array `l`.  History entries are read back as raw JSON dictionaries,
so every field is optional (`item.get(...)` in the source); items written
by checkout always carry all four fields.
-/

/-- A raw JSON dictionary as stored in `orders.json` (or posted by a
client before validation): each field of an order line may be absent. -/
structure HistEntry where
  drinkId : Option String
  drinkName : Option String
  quantity : Option Int
  calories : Option Int
deriving DecidableEq, Repr

/-- The pydantic model `OrderItem` of `src/main.py` (lines 76-80): all four
fields required. -/
structure OrderItem where
  drinkId : String
  drinkName : String
  quantity : Int
  calories : Int
deriving DecidableEq, Repr

/-- The dictionary checkout builds from a validated `OrderItem`
(`esp_items`, lines 413-421): all four fields present. -/
def OrderItem.toEntry (i : OrderItem) : HistEntry :=
  ⟨some i.drinkId, some i.drinkName, some i.quantity, some i.calories⟩

/-- `load_orders` (lines 45-50): if `orders.json` does not exist return
`[]`, else return its contents. -/
def load_orders : Option (List HistEntry) → List HistEntry
  | none => []
  | some l => l

/-- `save_orders` (lines 53-56): rewrite the whole file with the given
list; afterwards the file exists with exactly those contents. -/
def save_orders (orders : List HistEntry) : Option (List HistEntry) :=
  some orders

/-- The store's `append` operation as checkout performs it
(lines 430-432): load the full history, concatenate the new items in
their given order, rewrite the durable state. -/
def append_store (st : Option (List HistEntry)) (items : List HistEntry) :
    Option (List HistEntry) :=
  save_orders (load_orders st ++ items)

/-- The possible outcomes of the one HTTP POST issued by `send_to_esp`
(lines 25-38): a response with some status and body, a timeout of the
`httpx` call (connect 3s / total 8s), or a transport-level error. -/
inductive RelayOutcome where
  | response (status : Nat) (body : String)
  | timeout
  | transportError (msg : String)
deriving DecidableEq, Repr

/-- `send_to_esp` (lines 25-38): `httpx` raises on timeout and on
transport errors, and `r.raise_for_status()` raises `HTTPStatusError`
on any non-2xx status; each raise carries a human-readable message
(`str(e)`).  On a 2xx status, `r.json()` — the reply body — is returned
verbatim.  `Except.error` is a raised exception carrying its message. -/
def send_to_esp : RelayOutcome → Except String String
  | .response status body =>
      if 200 ≤ status ∧ status ≤ 299 then .ok body
      else .error ("HTTP status error: " ++ toString status)
  | .timeout => .error "timed out"
  | .transportError m => .error ("transport error: " ++ m)

/-- The JSON object returned by the `/checkout` handler. -/
structure CheckoutResult where
  status : String
  message : String
  esp : Option String
deriving DecidableEq, Repr

/-- The `/checkout` handler (lines 411-434) after validation, as a
function of the relay outcome, the durable state, and the validated
items: on any exception from `send_to_esp` return
`{"status":"error","message":"Could not reach robot: " + str(e)}` and
touch nothing; on success append `esp_items` to the history and return
`{"status":"ok", ..., "esp": esp_reply}`.  Returns the response paired
with the durable state after the call. -/
def checkout (outcome : RelayOutcome) (st : Option (List HistEntry))
    (items : List OrderItem) : CheckoutResult × Option (List HistEntry) :=
  match send_to_esp outcome with
  | .error e =>
      (⟨"error", "Could not reach robot: " ++ e, none⟩, st)
  | .ok reply =>
      (⟨"ok", "Order sent to robot and saved!", some reply⟩,
       save_orders (load_orders st ++ items.map OrderItem.toEntry))

/-- Modelled from the spec: the structural validation FastAPI/pydantic
performs on each posted item against the `OrderItem` model declared at
lines 76-80 — this machinery lives in the framework, not in `src/`.
Per the spec (§4.1), validation checks presence of each field and fails
naming the first offending field; no semantic invariants are enforced. -/
def validateItem : HistEntry → Except String OrderItem := fun r =>
  match r.drinkId with
  | none => .error "drinkId"
  | some did =>
    match r.drinkName with
    | none => .error "drinkName"
    | some dn =>
      match r.quantity with
      | none => .error "quantity"
      | some q =>
        match r.calories with
        | none => .error "calories"
        | some c => .ok ⟨did, dn, q, c⟩

/-- Modelled from the spec: validation of the whole posted sequence;
fails with the first offending field of the first invalid item. -/
def validateItems : List HistEntry → Except String (List OrderItem)
  | [] => .ok []
  | r :: rest =>
    match validateItem r with
    | .error f => .error f
    | .ok i =>
      match validateItems rest with
      | .error f => .error f
      | .ok is => .ok (i :: is)

/-- A `collections.Counter` over drink names: an association list of
(name, count), in key-insertion order, as a Python dict iterates. -/
abbrev DrinkCounter := List (String × Int)

/-- `counter[name] += qty`: add `q` to the count of `s`, inserting `s`
at the end (with count `0 + q`) if absent — a missing key of a `Counter`
reads as `0` and assignment appends it in insertion order. -/
def counterAdd : DrinkCounter → String → Int → DrinkCounter
  | [], s, q => [(s, q)]
  | (t, c) :: rest, s, q =>
      if t = s then (t, c + q) :: rest else (t, c) :: counterAdd rest s q

/-- One iteration of the loop at lines 66-70 of `get_top_drinks`:
`name = item.get("drinkName")`, `qty = int(item.get("quantity", 1))`,
`if name: counter[name] += qty` — `None` and the empty string are falsy
and skipped. -/
def countStep (c : DrinkCounter) (e : HistEntry) : DrinkCounter :=
  match e.drinkName with
  | none => c
  | some name =>
      if name = "" then c else counterAdd c name ((e.quantity).getD 1)

/-- The counter built by the loop of `get_top_drinks` over the whole
history. -/
def buildCounter (orders : List HistEntry) : DrinkCounter :=
  orders.foldl countStep []

/-- Insert a pair into a list sorted descending by count, after every
element of count ≥ its own (so later-inserted ties go after earlier
ones). -/
def insertDesc (p : String × Int) : DrinkCounter → DrinkCounter
  | [] => [p]
  | q :: rest => if q.2 < p.2 then p :: q :: rest else q :: insertDesc p rest

/-- Stable descending sort by count: inserting elements left to right
keeps tied elements in their original (insertion) order.  This models
how `heapq.nlargest` / `sorted(..., reverse=True)` order `Counter`
items: descending by count and, on ties, by position in `items()`. -/
def sortDesc (l : DrinkCounter) : DrinkCounter :=
  l.foldl (fun acc p => insertDesc p acc) []

/-- `Counter.most_common(n)`: the `n` largest (name, count) pairs,
descending by count, ties by insertion order — documented as equivalent
to `sorted(iterable, key=..., reverse=True)[:n]`, and stable. -/
def most_common (c : DrinkCounter) (n : Nat) : DrinkCounter :=
  (sortDesc c).take n

/-- `get_top_drinks` (lines 59-72) as a function of the loaded history
(`orders = load_orders()`) and the limit: empty history short-circuits
to `[]`; otherwise count per name and return the names of
`counter.most_common(limit)`. -/
def get_top_drinks (orders : List HistEntry) (limit : Nat) : List String :=
  if orders.isEmpty then []
  else (most_common (buildCounter orders) limit).map Prod.fst

/-- `get_top_drinks` as the source performs it: read the durable state
(a pure read — the function never writes), compute, and leave the state
as found.  The pair returned is (result, durable state after the call). -/
def get_top_drinks_op (st : Option (List HistEntry)) (limit : Nat) :
    List String × Option (List HistEntry) :=
  (get_top_drinks (load_orders st) limit, st)

/-- The body of the `/recommendations` handler (lines 438-448): either an
explicit "no orders yet" page or a list of at most 3 names. -/
inductive RecOutput where
  | noHistory
  | recs (names : List String)
deriving DecidableEq, Repr

/-- The `/recommendations` handler: `top = get_top_drinks(limit=3)`;
empty `top` renders the explicit no-history message, otherwise the list
of names. -/
def recommendations (st : Option (List HistEntry)) : RecOutput :=
  let top := (get_top_drinks_op st 3).1
  if top.isEmpty then .noHistory else .recs top

/-- The full `/checkout` operation on raw input: validation first (a
validation failure terminates the request before the handler body runs),
then the handler.  The final `Bool` records whether the relay client was
called at all. -/
def full_checkout (raw : List HistEntry) (outcome : RelayOutcome)
    (st : Option (List HistEntry)) :
    CheckoutResult × Option (List HistEntry) × Bool :=
  match validateItems raw with
  | .error f =>
      (⟨"error", "Invalid order: field " ++ f, none⟩, st, false)
  | .ok items =>
      let r := checkout outcome st items
      (r.1, r.2, true)

/-- The name under which a history entry is counted by the loop of
`get_top_drinks`: `none` when `drinkName` is absent or the empty string
(both falsy in Python), `some s` otherwise. -/
def effName (e : HistEntry) : Option String :=
  match e.drinkName with
  | none => none
  | some s => if s = "" then none else some s

/-- Specification-side accumulated quantity of a name: the sum of
`quantity` (defaulting to 1) over all history entries counted under that
name. -/
def totalQty (orders : List HistEntry) (s : String) : Int :=
  (orders.map (fun e => if effName e = some s then (e.quantity).getD 1 else 0)).sum

/-- Specification-side first-occurrence position of a name in the
history (the history's length when the name never occurs). -/
def firstOcc (orders : List HistEntry) (s : String) : Nat :=
  orders.findIdx (fun e => decide (effName e = some s))

/-- The ordering the spec requires of the output of `topDrinks`:
strictly greater accumulated quantity, or equal quantity and an earlier
first occurrence in the history. -/
def priorRel (orders : List HistEntry) (s t : String) : Prop :=
  totalQty orders t < totalQty orders s ∨
    (totalQty orders s = totalQty orders t ∧ firstOcc orders s < firstOcc orders t)

/-- The fully sorted name list (before the limit is applied): the names
of `sortDesc` over the accumulated counter. -/
def sortedNames (orders : List HistEntry) : List String :=
  (sortDesc (buildCounter orders)).map Prod.fst

example : get_top_drinks
    [⟨none, some "B", some 2, none⟩, ⟨none, some "A", some 2, none⟩] 1 = ["B"] := by
  decide

example : get_top_drinks
    [⟨none, some "A", some 2, none⟩, ⟨none, some "B", some 1, none⟩,
     ⟨none, some "A", some 1, none⟩] 3 = ["A", "B"] := by
  decide

example : get_top_drinks
    [⟨none, none, some 2, none⟩, ⟨none, some "", some 5, none⟩,
     ⟨none, some "A", none, none⟩] 3 = ["A"] := by
  decide

/-- Equation for `get_top_drinks` without the redundant emptiness guard:
an empty history yields an empty counter, so both branches agree. -/
theorem get_top_drinks_eq (orders : List HistEntry) (limit : Nat) :
    get_top_drinks orders limit =
      (most_common (buildCounter orders) limit).map Prod.fst := by
  cases orders <;> simp [get_top_drinks, buildCounter, most_common, sortDesc]

/-- A raw item with any absent field fails `validateItem`. -/
theorem validateItem_missing_field (r : HistEntry)
    (h : r.drinkId = none ∨ r.drinkName = none ∨ r.quantity = none ∨
      r.calories = none) :
    ∃ f, validateItem r = .error f := by
  obtain ⟨did, dn, q, c⟩ := r
  cases did <;> cases dn <;> cases q <;> cases c <;>
    simp_all [validateItem]

/-- A sequence containing an invalid item fails `validateItems`. -/
theorem validateItems_has_invalid (raw : List HistEntry)
    (h : ∃ r ∈ raw, r.drinkId = none ∨ r.drinkName = none ∨
      r.quantity = none ∨ r.calories = none) :
    ∃ f, validateItems raw = .error f := by
  induction raw with
  | nil => simp at h
  | cons r rest ih =>
    rcases h with ⟨x, hx, hbad⟩
    rcases List.mem_cons.mp hx with hx | hx
    · subst hx
      obtain ⟨f, hf⟩ := validateItem_missing_field x hbad
      exact ⟨f, by simp [validateItems, hf]⟩
    · rcases hv : validateItem r with f | i
      · exact ⟨f, by simp [validateItems, hv]⟩
      · obtain ⟨f, hf⟩ := ih ⟨x, hx, hbad⟩
        exact ⟨f, by simp [validateItems, hv, hf]⟩

/-- C1: for every sequence of valid order items, if the device relay
fails (non-success status, timeout, or transport error — i.e.
`send_to_esp` raises with cause `c`), `checkout` returns `status=error`
with a message wrapping the cause, and the durable order history is
exactly what it was before the checkout: no item of the failed order is
persisted. -/
theorem checkout_relay_failure_no_persist
    (outcome : RelayOutcome) (st : Option (List HistEntry))
    (items : List OrderItem) (c : String)
    (h : send_to_esp outcome = .error c) :
    (checkout outcome st items).2 = st ∧
    load_orders (checkout outcome st items).2 = load_orders st ∧
    (checkout outcome st items).1.status = "error" ∧
    (checkout outcome st items).1.message = "Could not reach robot: " ++ c := by
  simp [checkout, h]

/-- Witness for C1 at a concrete timeout with a nonempty prior history. -/
theorem checkout_relay_failure_no_persist_witness :
    (checkout .timeout (some [⟨some "d1", some "Cola Spark", some 2, some 81⟩])
        [⟨"d2", "Voltage Fizz", 1, 117⟩]).2 =
      some [⟨some "d1", some "Cola Spark", some 2, some 81⟩] ∧
    (checkout .timeout (some [⟨some "d1", some "Cola Spark", some 2, some 81⟩])
        [⟨"d2", "Voltage Fizz", 1, 117⟩]).1.status = "error" := by
  have h := checkout_relay_failure_no_persist .timeout
    (some [⟨some "d1", some "Cola Spark", some 2, some 81⟩])
    [⟨"d2", "Voltage Fizz", 1, 117⟩] "timed out" rfl
  exact ⟨h.1, h.2.2.1⟩

/-- C2: for every sequence of valid order items, if the device relay
succeeds, the durable history after `checkout` equals the history before
with exactly those items appended, in their given relative order, after
all prior entries — and the response is `status=ok`. -/
theorem checkout_success_appends
    (outcome : RelayOutcome) (st : Option (List HistEntry))
    (items : List OrderItem) (reply : String)
    (h : send_to_esp outcome = .ok reply) :
    load_orders (checkout outcome st items).2 =
      load_orders st ++ items.map OrderItem.toEntry ∧
    (checkout outcome st items).2 =
      append_store st (items.map OrderItem.toEntry) ∧
    (checkout outcome st items).1.status = "ok" := by
  simp [checkout, h, append_store, save_orders, load_orders]

/-- Witness for C2 at a concrete 200 response with two items and a
nonempty prior history. -/
theorem checkout_success_appends_witness :
    load_orders (checkout (.response 200 "brewing")
        (some [⟨some "d0", some "Water", some 1, some 0⟩])
        [⟨"d2", "Voltage Fizz", 1, 117⟩, ⟨"d3", "Dark Amber", 2, 65⟩]).2 =
      [⟨some "d0", some "Water", some 1, some 0⟩,
       ⟨some "d2", some "Voltage Fizz", some 1, some 117⟩,
       ⟨some "d3", some "Dark Amber", some 2, some 65⟩] := by
  have h := checkout_success_appends (.response 200 "brewing")
    (some [⟨some "d0", some "Water", some 1, some 0⟩])
    [⟨"d2", "Voltage Fizz", 1, 117⟩, ⟨"d3", "Dark Amber", 2, 65⟩]
    "brewing" rfl
  exact h.1.trans (by simp [load_orders, OrderItem.toEntry])

/-- C4: every relay outcome is classified uniformly — any non-2xx
status, any timeout and any transport error raises with a cause string,
which `checkout` surfaces as a `DeviceUnreachable`-style error wrapping
the cause; on a 2xx response the device's reply body is returned
verbatim in the ok result's `esp` field. -/
theorem relay_outcome_classification
    (status : Nat) (body m : String) (st : Option (List HistEntry))
    (items : List OrderItem) :
    (200 ≤ status → status ≤ 299 →
      send_to_esp (.response status body) = .ok body) ∧
    (¬ (200 ≤ status ∧ status ≤ 299) →
      ∃ c, send_to_esp (.response status body) = .error c) ∧
    (∃ c, send_to_esp .timeout = .error c) ∧
    (∃ c, send_to_esp (.transportError m) = .error c) ∧
    (∀ o b, send_to_esp o = .ok b →
      (checkout o st items).1.esp = some b ∧
      (checkout o st items).1.status = "ok") ∧
    (∀ o c, send_to_esp o = .error c →
      (checkout o st items).1.status = "error" ∧
      (checkout o st items).1.message = "Could not reach robot: " ++ c) := by
  refine ⟨fun h1 h2 => by simp [send_to_esp, h1, h2],
    fun h => ⟨"HTTP status error: " ++ toString status, by simp [send_to_esp, h]⟩,
    ⟨"timed out", rfl⟩, ⟨"transport error: " ++ m, rfl⟩,
    fun o b h => by simp [checkout, h],
    fun o c h => by simp [checkout, h]⟩

/-- Witness for C4: a 200 response is ok with the body verbatim, a 503
response and a timeout are errors, and checkout wraps them. -/
theorem relay_outcome_classification_witness :
    send_to_esp (.response 200 "ready") = .ok "ready" ∧
    (∃ c, send_to_esp (.response 503 "x") = .error c) ∧
    (checkout (.response 200 "ready") none []).1.esp = some "ready" ∧
    (checkout .timeout none []).1.status = "error" := by
  have h1 := relay_outcome_classification 200 "ready" "m" none []
  have h2 := relay_outcome_classification 503 "x" "m" none []
  refine ⟨h1.1 (by decide) (by decide), h2.2.1 (by decide), ?_, ?_⟩
  · exact (h1.2.2.2.2.1 _ "ready" (h1.1 (by decide) (by decide))).1
  · obtain ⟨c, hc⟩ := h1.2.2.1
    exact (h1.2.2.2.2.2 .timeout c hc).1

/-- C5: a raw input sequence containing an item missing `drinkName` (or
any required field) makes checkout terminate with an invalid-order
error result naming an offending field; the relay client is never
called and the durable state is untouched. -/
theorem checkout_invalid_item_rejected
    (raw : List HistEntry) (outcome : RelayOutcome)
    (st : Option (List HistEntry))
    (h : ∃ r ∈ raw, r.drinkId = none ∨ r.drinkName = none ∨
      r.quantity = none ∨ r.calories = none) :
    (∃ f, validateItems raw = .error f ∧
      (full_checkout raw outcome st).1 =
        ⟨"error", "Invalid order: field " ++ f, none⟩) ∧
    (full_checkout raw outcome st).2.1 = st ∧
    (full_checkout raw outcome st).2.2 = false := by
  obtain ⟨f, hf⟩ := validateItems_has_invalid raw h
  exact ⟨⟨f, hf, by simp [full_checkout, hf]⟩,
    by simp [full_checkout, hf], by simp [full_checkout, hf]⟩

/-- Witness for C5: one item missing `drinkName` (all other fields
present), a relay that would succeed, and a nonempty prior history. -/
theorem checkout_invalid_item_rejected_witness :
    (full_checkout [⟨some "d9", none, some 1, some 10⟩] (.response 200 "ok")
        (some [⟨some "d0", some "Water", some 1, some 0⟩])).2.1 =
      some [⟨some "d0", some "Water", some 1, some 0⟩] ∧
    (full_checkout [⟨some "d9", none, some 1, some 10⟩] (.response 200 "ok")
        (some [⟨some "d0", some "Water", some 1, some 0⟩])).2.2 = false ∧
    (full_checkout [⟨some "d9", none, some 1, some 10⟩] (.response 200 "ok")
        (some [⟨some "d0", some "Water", some 1, some 0⟩])).1.status =
      "error" := by
  have h := checkout_invalid_item_rejected
    [⟨some "d9", none, some 1, some 10⟩] (.response 200 "ok")
    (some [⟨some "d0", some "Water", some 1, some 0⟩])
    ⟨⟨some "d9", none, some 1, some 10⟩, by simp, by simp⟩
  obtain ⟨⟨f, _, hres⟩, hst, hflag⟩ := h
  exact ⟨hst, hflag, by rw [hres]⟩

/-- C6: `load()` on a store with no prior durable writes returns the
empty sequence, and for every prior state and item sequence, `append`
followed by `load` returns exactly the prior history with the items
appended (store round-trip). -/
theorem store_round_trip :
    load_orders none = [] ∧
    ∀ (st : Option (List HistEntry)) (items : List HistEntry),
      load_orders (append_store st items) = load_orders st ++ items := by
  exact ⟨rfl, fun st items => by simp [append_store, save_orders, load_orders]⟩

/-- C7: computing top drinks is a pure function of the history content
and the limit: the durable state after the operation is the state
before, the result depends only on the loaded history and the limit,
and two computations over the same state agree. -/
theorem get_top_drinks_pure
    (st st2 : Option (List HistEntry)) (limit : Nat)
    (h : load_orders st = load_orders st2) :
    (get_top_drinks_op st limit).2 = st ∧
    (get_top_drinks_op st limit).1 = (get_top_drinks_op st2 limit).1 ∧
    (get_top_drinks_op st limit).1 = (get_top_drinks_op st limit).1 := by
  exact ⟨rfl, by simp [get_top_drinks_op, h], rfl⟩

/-- Witness for C7: a file holding `[x]` and a fresh append producing
the same contents give the same recommendation input. -/
theorem get_top_drinks_pure_witness :
    (get_top_drinks_op (some [⟨none, some "Water", some 1, none⟩]) 3).2 =
      some [⟨none, some "Water", some 1, none⟩] ∧
    (get_top_drinks_op (some [⟨none, some "Water", some 1, none⟩]) 3).1 =
      (get_top_drinks_op (append_store none [⟨none, some "Water", some 1, none⟩]) 3).1 := by
  have h := get_top_drinks_pure (some [⟨none, some "Water", some 1, none⟩])
    (append_store none [⟨none, some "Water", some 1, none⟩]) 3 rfl
  exact ⟨h.1, h.2.1⟩

/-- C8: for every limit, `get_top_drinks` applied to an empty history
returns the empty sequence. -/
theorem get_top_drinks_empty (limit : Nat) :
    get_top_drinks [] limit = [] := by
  simp [get_top_drinks]

/-- Association-list lookup of a name's count in the counter. -/
def lookupC : DrinkCounter → String → Option Int
  | [], _ => none
  | (t, c) :: rest, s => if t = s then some c else lookupC rest s

/-- After `counterAdd c s q`, the count of `s` is its old count
(defaulting to 0) plus `q`. -/
theorem lookupC_counterAdd_self (c : DrinkCounter) (s : String) (q : Int) :
    lookupC (counterAdd c s q) s = some ((lookupC c s).getD 0 + q) := by
  induction c with
  | nil => simp [counterAdd, lookupC]
  | cons p rest ih =>
    obtain ⟨t, v⟩ := p
    by_cases ht : t = s
    · subst ht
      simp [counterAdd, lookupC]
    · simp [counterAdd, lookupC, ht, ih]

/-- `counterAdd c s q` leaves every other name's count unchanged. -/
theorem lookupC_counterAdd_other (c : DrinkCounter) (s t : String)
    (q : Int) (hts : t ≠ s) :
    lookupC (counterAdd c s q) t = lookupC c t := by
  have hst : ¬ s = t := fun h => hts h.symm
  induction c with
  | nil => simp [counterAdd, lookupC, hst]
  | cons p rest ih =>
    obtain ⟨u, v⟩ := p
    by_cases hu : u = s
    · subst hu
      simp [counterAdd, lookupC, hst]
    · simp only [counterAdd, if_neg hu, lookupC]
      by_cases hut : u = t <;> simp [hut, ih]

/-- `countStep` skips an entry not counted under any name. -/
theorem countStep_of_effName_none (c : DrinkCounter) (e : HistEntry)
    (h : effName e = none) : countStep c e = c := by
  unfold countStep
  unfold effName at h
  cases hdn : e.drinkName with
  | none => rfl
  | some n =>
    rw [hdn] at h
    by_cases hn : n = ""
    · simp [hn]
    · simp [hn] at h

/-- `countStep` on an entry counted under `n` adds the entry's quantity
(defaulting to 1) to the count of `n`. -/
theorem countStep_of_effName_some (c : DrinkCounter) (e : HistEntry)
    (n : String) (h : effName e = some n) :
    countStep c e = counterAdd c n ((e.quantity).getD 1) := by
  unfold countStep
  unfold effName at h
  cases hdn : e.drinkName with
  | none => rw [hdn] at h; simp at h
  | some m =>
    rw [hdn] at h
    by_cases hm : m = ""
    · simp [hm] at h
    · simp only [hm, if_neg, if_false] at h
      obtain rfl : m = n := by simpa using h
      simp [hm]

/-- A name has an entry in the counter exactly when it is one of the
keys. -/
theorem lookupC_isSome_iff (c : DrinkCounter) (s : String) :
    (lookupC c s).isSome = true ↔ s ∈ c.map Prod.fst := by
  induction c with
  | nil => simp [lookupC]
  | cons p rest ih =>
    obtain ⟨t, v⟩ := p
    by_cases ht : t = s
    · subst ht
      simp [lookupC]
    · simp [lookupC, ht, ih, Ne.symm ht]

/-- `totalQty` over a cons: the head's contribution plus the tail's. -/
theorem totalQty_cons (e : HistEntry) (rest : List HistEntry) (s : String) :
    totalQty (e :: rest) s =
      (if effName e = some s then (e.quantity).getD 1 else 0) +
        totalQty rest s := by
  simp [totalQty]

/-- One `countStep` adds exactly the entry's contribution to the count
of every name (0 for names the entry is not counted under). -/
theorem getD_countStep (c : DrinkCounter) (e : HistEntry) (t : String) :
    (lookupC (countStep c e) t).getD 0 =
      (lookupC c t).getD 0 +
        (if effName e = some t then (e.quantity).getD 1 else 0) := by
  unfold countStep effName
  cases hdn : e.drinkName with
  | none => simp
  | some n =>
    by_cases hn : n = ""
    · simp [hn]
    · by_cases hnt : n = t
      · subst hnt
        simp [hn, lookupC_counterAdd_self]
      · simp [hn, hnt, lookupC_counterAdd_other c n t _ (Ne.symm hnt)]

/-- Folding `countStep` over the history adds each name's accumulated
quantity to its initial count. -/
theorem getD_foldl_countStep (orders : List HistEntry) (c : DrinkCounter)
    (t : String) :
    (lookupC (orders.foldl countStep c) t).getD 0 =
      (lookupC c t).getD 0 + totalQty orders t := by
  induction orders generalizing c with
  | nil => simp [totalQty]
  | cons e rest ih =>
    rw [List.foldl_cons, ih, getD_countStep, totalQty_cons, Int.add_assoc]

/-- A name is a key of the folded counter exactly when it was already a
key or some history entry is counted under it. -/
theorem isSome_foldl_countStep (orders : List HistEntry) (c : DrinkCounter)
    (t : String) :
    (lookupC (orders.foldl countStep c) t).isSome = true ↔
      ((lookupC c t).isSome = true ∨ ∃ e ∈ orders, effName e = some t) := by
  induction orders generalizing c with
  | nil => simp
  | cons e rest ih =>
    rw [List.foldl_cons, ih]
    cases heff : effName e with
    | none =>
      rw [countStep_of_effName_none c e heff]
      constructor
      · rintro (hc | he)
        · exact Or.inl hc
        · exact Or.inr (let ⟨x, hx, hex⟩ := he;
            ⟨x, List.mem_cons_of_mem e hx, hex⟩)
      · rintro (hc | ⟨x, hx, hex⟩)
        · exact Or.inl hc
        · rcases List.mem_cons.mp hx with hx | hx
          · subst hx; rw [heff] at hex; simp at hex
          · exact Or.inr ⟨x, hx, hex⟩
    | some n =>
      rw [countStep_of_effName_some c e n heff]
      by_cases hnt : n = t
      · subst hnt
        constructor
        · intro _
          exact Or.inr ⟨e, List.mem_cons_self e rest, heff⟩
        · intro _
          left
          simp [lookupC_counterAdd_self]
      · rw [lookupC_counterAdd_other c n t _ (Ne.symm hnt)]
        constructor
        · rintro (hc | he)
          · exact Or.inl hc
          · exact Or.inr (let ⟨x, hx, hex⟩ := he;
              ⟨x, List.mem_cons_of_mem e hx, hex⟩)
        · rintro (hc | ⟨x, hx, hex⟩)
          · exact Or.inl hc
          · rcases List.mem_cons.mp hx with hx | hx
            · subst hx
              rw [heff] at hex
              exact absurd (by simpa using hex) hnt
            · exact Or.inr ⟨x, hx, hex⟩

/-- `counterAdd` keeps existing keys in place and appends a new key at
the end. -/
theorem keys_counterAdd (c : DrinkCounter) (s : String) (q : Int) :
    (counterAdd c s q).map Prod.fst =
      if s ∈ c.map Prod.fst then c.map Prod.fst
      else c.map Prod.fst ++ [s] := by
  induction c with
  | nil => simp [counterAdd]
  | cons p rest ih =>
    obtain ⟨u, v⟩ := p
    by_cases hu : u = s
    · subst hu
      simp [counterAdd]
    · have hsu : ¬ s = u := fun h => hu h.symm
      simp only [counterAdd, if_neg hu, List.map_cons, List.mem_cons, hsu,
        false_or, ih]
      by_cases hs : s ∈ rest.map Prod.fst <;> simp [hs]

/-- First occurrence of a name in a cons history. -/
theorem firstOcc_cons (e : HistEntry) (rest : List HistEntry) (s : String) :
    firstOcc (e :: rest) s =
      if effName e = some s then 0 else firstOcc rest s + 1 := by
  rw [firstOcc, List.findIdx_cons]
  by_cases h : effName e = some s <;> simp [h, firstOcc]

/-- Folding the counting loop over a history extends the key list: the
initial keys stay in place (in order) and the names newly encountered
are appended, each outside the initial keys, each the effective name of
some history entry, ordered among themselves by their first occurrence
in the history. -/
theorem keys_foldl_split (orders : List HistEntry) :
    ∀ c : DrinkCounter,
    ∃ ks : List String,
      (orders.foldl countStep c).map Prod.fst = c.map Prod.fst ++ ks ∧
      (∀ t ∈ ks, t ∉ c.map Prod.fst ∧ ∃ e ∈ orders, effName e = some t) ∧
      ks.Pairwise (fun s t => firstOcc orders s < firstOcc orders t) := by
  induction orders with
  | nil => exact fun c => ⟨[], by simp, by simp, List.Pairwise.nil⟩
  | cons e rest ih =>
    intro c
    cases heff : effName e with
    | none =>
      obtain ⟨ks, h1, h2, h3⟩ := ih c
      refine ⟨ks, ?_, ?_, ?_⟩
      · rw [List.foldl_cons, countStep_of_effName_none c e heff]
        exact h1
      · intro t ht
        exact ⟨(h2 t ht).1,
          let ⟨x, hx, hex⟩ := (h2 t ht).2
          ⟨x, List.mem_cons_of_mem e hx, hex⟩⟩
      · refine h3.imp fun {a b} hab => ?_
        have ha : ¬ effName e = some a := by rw [heff]; simp
        have hb : ¬ effName e = some b := by rw [heff]; simp
        rw [firstOcc_cons, firstOcc_cons, if_neg ha, if_neg hb]
        omega
    | some n =>
      have hstep : countStep c e = counterAdd c n ((e.quantity).getD 1) :=
        countStep_of_effName_some c e n heff
      by_cases hn : n ∈ c.map Prod.fst
      · obtain ⟨ks, h1, h2, h3⟩ := ih (counterAdd c n ((e.quantity).getD 1))
        have hkeys : (counterAdd c n ((e.quantity).getD 1)).map Prod.fst =
            c.map Prod.fst := by rw [keys_counterAdd, if_pos hn]
        refine ⟨ks, ?_, ?_, ?_⟩
        · rw [List.foldl_cons, hstep, h1, hkeys]
        · intro t ht
          refine ⟨?_, ?_⟩
          · have := (h2 t ht).1
            rwa [hkeys] at this
          · obtain ⟨x, hx, hex⟩ := (h2 t ht).2
            exact ⟨x, List.mem_cons_of_mem e hx, hex⟩
        · refine h3.imp_of_mem fun {a b} hma hmb hab => ?_
          have ha : ¬ effName e = some a := by
            rw [heff]
            intro h
            obtain rfl : n = a := by simpa using h
            exact ((h2 n hma).1 (by rw [hkeys]; exact hn)).elim
          have hb : ¬ effName e = some b := by
            rw [heff]
            intro h
            obtain rfl : n = b := by simpa using h
            exact ((h2 n hmb).1 (by rw [hkeys]; exact hn)).elim
          rw [firstOcc_cons, firstOcc_cons, if_neg ha, if_neg hb]
          omega
      · obtain ⟨ks', h1, h2, h3⟩ := ih (counterAdd c n ((e.quantity).getD 1))
        have hkeys : (counterAdd c n ((e.quantity).getD 1)).map Prod.fst =
            c.map Prod.fst ++ [n] := by rw [keys_counterAdd, if_neg hn]
        have hnotn : ∀ t ∈ ks', ¬ t = n := by
          intro t ht h
          subst h
          exact (h2 t ht).1 (by rw [hkeys]; simp)
        refine ⟨n :: ks', ?_, ?_, ?_⟩
        · rw [List.foldl_cons, hstep, h1, hkeys, List.append_assoc,
            List.singleton_append]
        · intro t ht
          rcases List.mem_cons.mp ht with rfl | ht
          · exact ⟨hn, ⟨e, List.mem_cons_self e rest, heff⟩⟩
          · refine ⟨?_, ?_⟩
            · intro hmem
              exact (h2 t ht).1 (by rw [hkeys]; exact List.mem_append_left _ hmem)
            · obtain ⟨x, hx, hex⟩ := (h2 t ht).2
              exact ⟨x, List.mem_cons_of_mem e hx, hex⟩
        · refine List.Pairwise.cons ?_ ?_
          · intro t ht
            have htn : ¬ effName e = some t := by
              rw [heff]
              intro h
              exact hnotn t ht (by simpa using h.symm)
            rw [firstOcc_cons, firstOcc_cons, if_pos heff, if_neg htn]
            omega
          · refine h3.imp_of_mem fun {a b} hma hmb hab => ?_
            have ha : ¬ effName e = some a := by
              rw [heff]
              intro h
              exact hnotn a hma (by simpa using h.symm)
            have hb : ¬ effName e = some b := by
              rw [heff]
              intro h
              exact hnotn b hmb (by simpa using h.symm)
            rw [firstOcc_cons, firstOcc_cons, if_neg ha, if_neg hb]
            omega

/-- The keys of the built counter are ordered by first occurrence in the
history. -/
theorem buildCounter_keys_pairwise (orders : List HistEntry) :
    ((buildCounter orders).map Prod.fst).Pairwise
      (fun s t => firstOcc orders s < firstOcc orders t) := by
  obtain ⟨ks, h1, _, h3⟩ := keys_foldl_split orders []
  rw [buildCounter, h1]
  simpa using h3

/-- The keys of the built counter are distinct. -/
theorem buildCounter_keys_nodup (orders : List HistEntry) :
    ((buildCounter orders).map Prod.fst).Nodup := by
  refine (buildCounter_keys_pairwise orders).imp fun {a b} hab => ?_
  intro h
  subst h
  exact Nat.lt_irrefl _ hab

/-- A name is a key of the built counter exactly when some history entry
is counted under it. -/
theorem mem_buildCounter_keys (orders : List HistEntry) (s : String) :
    s ∈ (buildCounter orders).map Prod.fst ↔
      ∃ e ∈ orders, effName e = some s := by
  rw [← lookupC_isSome_iff, buildCounter, isSome_foldl_countStep]
  simp [lookupC]

/-- In a counter with distinct keys, a member pair is what lookup finds. -/
theorem lookupC_of_mem (c : DrinkCounter)
    (hnd : (c.map Prod.fst).Nodup) (p : String × Int) (hp : p ∈ c) :
    lookupC c p.1 = some p.2 := by
  induction c with
  | nil => simp at hp
  | cons q rest ih =>
    obtain ⟨u, v⟩ := q
    have hnd' : u ∉ rest.map Prod.fst ∧ (rest.map Prod.fst).Nodup := by
      rw [List.map_cons, List.nodup_cons] at hnd
      exact hnd
    rcases List.mem_cons.mp hp with rfl | hp
    · simp [lookupC]
    · have h1 : p.1 ∈ rest.map Prod.fst := List.mem_map_of_mem Prod.fst hp
      have hu : ¬ u = p.1 := fun h => hnd'.1 (h ▸ h1)
      simp [lookupC, hu, ih hnd'.2 hp]

/-- Every pair of the built counter holds exactly the accumulated
quantity of its name. -/
theorem buildCounter_count (orders : List HistEntry) (p : String × Int)
    (hp : p ∈ buildCounter orders) : p.2 = totalQty orders p.1 := by
  have hl := lookupC_of_mem (buildCounter orders)
    (buildCounter_keys_nodup orders) p hp
  have hg := getD_foldl_countStep orders [] p.1
  rw [← buildCounter] at hg
  rw [hl] at hg
  simpa [lookupC] using hg

/-- The ordering maintained by the stable descending sort on counter
pairs: strictly greater count, or equal count and the tie-break
relation `R` (which will be first-occurrence order). -/
def tieOrder (R : String × Int → String × Int → Prop)
    (p q : String × Int) : Prop :=
  q.2 < p.2 ∨ (p.2 = q.2 ∧ R p q)

/-- `insertDesc` inserts a permutation-neutral element. -/
theorem insertDesc_perm (p : String × Int) (l : DrinkCounter) :
    (insertDesc p l).Perm (p :: l) := by
  induction l with
  | nil => exact List.Perm.refl _
  | cons q rest ih =>
    unfold insertDesc
    by_cases h : q.2 < p.2
    · rw [if_pos h]
    · rw [if_neg h]
      exact (List.Perm.cons q ih).trans (List.Perm.swap p q rest)

/-- Membership in `insertDesc`. -/
theorem mem_insertDesc (p x : String × Int) (l : DrinkCounter) :
    x ∈ insertDesc p l ↔ x = p ∨ x ∈ l := by
  rw [(insertDesc_perm p l).mem_iff, List.mem_cons]

/-- Inserting an element that every current element tie-breaks below
preserves sortedness in `tieOrder R`. -/
theorem insertDesc_pairwise (R : String × Int → String × Int → Prop)
    (p : String × Int) (l : DrinkCounter)
    (hl : l.Pairwise (tieOrder R)) (hR : ∀ q ∈ l, R q p) :
    (insertDesc p l).Pairwise (tieOrder R) := by
  induction l with
  | nil => simp [insertDesc]
  | cons q rest ih =>
    have hq := (List.pairwise_cons.mp hl).1
    have hrest := (List.pairwise_cons.mp hl).2
    unfold insertDesc
    by_cases h : q.2 < p.2
    · rw [if_pos h]
      refine List.Pairwise.cons ?_ hl
      intro x hx
      rcases List.mem_cons.mp hx with rfl | hx
      · exact Or.inl h
      · rcases hq x hx with hqx | hqx
        · exact Or.inl (lt_trans hqx h)
        · exact Or.inl (hqx.1 ▸ h)
    · rw [if_neg h]
      refine List.Pairwise.cons ?_
        (ih hrest fun x hx => hR x (List.mem_cons_of_mem q hx))
      intro x hx
      rcases (mem_insertDesc p x rest).mp hx with rfl | hx
      · rcases lt_or_eq_of_le (le_of_not_lt h) with hlt | heq
        · exact Or.inl hlt
        · exact Or.inr ⟨heq.symm, hR q (List.mem_cons_self q rest)⟩
      · exact hq x hx

/-- Invariant of the left fold of `insertDesc`: starting from a sorted
accumulator whose elements all tie-break below every remaining element,
the fold yields a list sorted in `tieOrder R`, a permutation of
accumulator plus input. -/
theorem foldl_insertDesc_spec (R : String × Int → String × Int → Prop) :
    ∀ (l acc : DrinkCounter), acc.Pairwise (tieOrder R) →
    (∀ q ∈ acc, ∀ p ∈ l, R q p) → l.Pairwise R →
    (l.foldl (fun a p => insertDesc p a) acc).Pairwise (tieOrder R) ∧
    (l.foldl (fun a p => insertDesc p a) acc).Perm (acc ++ l) := by
  intro l
  induction l with
  | nil => intro acc hacc _ _; exact ⟨hacc, by simp⟩
  | cons p rest ih =>
    intro acc hacc hfut hl
    have hlp := (List.pairwise_cons.mp hl).1
    have hlrest := (List.pairwise_cons.mp hl).2
    have hacc' : (insertDesc p acc).Pairwise (tieOrder R) :=
      insertDesc_pairwise R p acc hacc
        (fun q hq => hfut q hq p (List.mem_cons_self p rest))
    have hfut' : ∀ q ∈ insertDesc p acc, ∀ x ∈ rest, R q x := by
      intro q hq x hx
      rcases (mem_insertDesc p q acc).mp hq with rfl | hq
      · exact hlp x hx
      · exact hfut q hq x (List.mem_cons_of_mem p hx)
    obtain ⟨hpw, hperm⟩ := ih (insertDesc p acc) hacc' hfut' hlrest
    refine ⟨by simpa using hpw, ?_⟩
    have h2 : (insertDesc p acc ++ rest).Perm ((p :: acc) ++ rest) :=
      (insertDesc_perm p acc).append_right rest
    have h3 : (acc ++ p :: rest).Perm (p :: (acc ++ rest)) :=
      List.perm_middle
    exact (hperm.trans h2).trans h3.symm

/-- `sortDesc` sorts a `tieOrder R`-compatible input into `tieOrder R`
order and permutes it. -/
theorem sortDesc_spec (R : String × Int → String × Int → Prop)
    (l : DrinkCounter) (hl : l.Pairwise R) :
    (sortDesc l).Pairwise (tieOrder R) ∧ (sortDesc l).Perm l := by
  obtain ⟨h1, h2⟩ := foldl_insertDesc_spec R l [] List.Pairwise.nil
    (by simp) hl
  exact ⟨h1, by simpa using h2⟩

/-- The sorted counter of a history: a permutation of the built counter,
sorted descending by count with ties broken by first occurrence. -/
theorem sortDesc_buildCounter (orders : List HistEntry) :
    (sortDesc (buildCounter orders)).Perm (buildCounter orders) ∧
    (sortDesc (buildCounter orders)).Pairwise
      (tieOrder (fun p q => firstOcc orders p.1 < firstOcc orders q.1)) := by
  have hR : (buildCounter orders).Pairwise
      (fun p q => firstOcc orders p.1 < firstOcc orders q.1) := by
    have h := buildCounter_keys_pairwise orders
    rw [List.pairwise_map] at h
    exact h
  obtain ⟨h1, h2⟩ := sortDesc_spec
    (fun p q => firstOcc orders p.1 < firstOcc orders q.1)
    (buildCounter orders) hR
  exact ⟨h2, h1⟩

/-- The full sorted name list is ordered by the spec's priority:
descending accumulated quantity, ties by earliest first occurrence. -/
theorem sortedNames_pairwise (orders : List HistEntry) :
    (sortedNames orders).Pairwise (priorRel orders) := by
  obtain ⟨hperm, hpw⟩ := sortDesc_buildCounter orders
  rw [sortedNames, List.pairwise_map]
  refine hpw.imp_of_mem fun {p q} hp hq hpq => ?_
  have hcp : p.2 = totalQty orders p.1 :=
    buildCounter_count orders p (hperm.mem_iff.mp hp)
  have hcq : q.2 = totalQty orders q.1 :=
    buildCounter_count orders q (hperm.mem_iff.mp hq)
  rcases hpq with hlt | ⟨heq, hocc⟩
  · exact Or.inl (by rw [← hcp, ← hcq]; exact hlt)
  · exact Or.inr ⟨by rw [← hcp, ← hcq]; exact heq, hocc⟩

/-- Membership in the full sorted name list: exactly the names some
history entry is counted under. -/
theorem mem_sortedNames (orders : List HistEntry) (s : String) :
    s ∈ sortedNames orders ↔ ∃ e ∈ orders, effName e = some s := by
  obtain ⟨hperm, _⟩ := sortDesc_buildCounter orders
  rw [sortedNames, ← mem_buildCounter_keys]
  exact (hperm.map Prod.fst).mem_iff

/-- `get_top_drinks` is the truncation of the full sorted name list. -/
theorem get_top_drinks_take (orders : List HistEntry) (limit : Nat) :
    get_top_drinks orders limit = (sortedNames orders).take limit := by
  rw [get_top_drinks_eq, most_common, sortedNames, List.map_take]

/-- No entry is ever counted under the empty name. -/
theorem effName_ne_empty (e : HistEntry) : effName e ≠ some "" := by
  unfold effName
  cases e.drinkName with
  | none => simp
  | some n =>
    by_cases h : n = "" <;> simp [h]

/-- An entry with absent `drinkName` is skipped by the counting loop. -/
theorem countStep_none_name (c : DrinkCounter) (did : Option String)
    (q cal : Option Int) : countStep c ⟨did, none, q, cal⟩ = c := rfl

/-- An entry whose `drinkName` is the empty string is skipped by the
counting loop (empty strings are falsy). -/
theorem countStep_empty_name (c : DrinkCounter) (did : Option String)
    (q cal : Option Int) : countStep c ⟨did, some "", q, cal⟩ = c := by
  simp [countStep]

/-- An entry with absent `quantity` counts as quantity 1. -/
theorem countStep_default_qty (c : DrinkCounter) (did dn : Option String)
    (cal : Option Int) :
    countStep c ⟨did, dn, none, cal⟩ = countStep c ⟨did, dn, some 1, cal⟩ := by
  cases dn <;> simp [countStep]

/-- Folding the rest of the history onto a prefix counter gives the
counter of the concatenation. -/
theorem foldl_buildCounter (l1 l2 : List HistEntry) :
    l2.foldl countStep (buildCounter l1) = buildCounter (l1 ++ l2) := by
  rw [buildCounter, buildCounter, List.foldl_append]

/-- The counter over a history with one entry singled out. -/
theorem buildCounter_append (l1 l2 : List HistEntry) (e : HistEntry) :
    buildCounter (l1 ++ e :: l2) =
      l2.foldl countStep (countStep (buildCounter l1) e) := by
  rw [buildCounter, List.foldl_append, List.foldl_cons, buildCounter]

/-- Unfolding equation for the `/recommendations` handler. -/
theorem recommendations_eq (st : Option (List HistEntry)) :
    recommendations st =
      if (get_top_drinks (load_orders st) 3).isEmpty then .noHistory
      else .recs (get_top_drinks (load_orders st) 3) := rfl

/-- C3: for every history and limit, `get_top_drinks` accumulates per
distinct drink name the sum of `quantity` over all entries bearing that
name (every counter pair holds its name's accumulated quantity), and
returns the names sorted descending by accumulated quantity with ties
broken by earliest first occurrence in the history, truncated to the
limit; the output names are exactly the names borne by some entry.  In
particular for history [B qty2, A qty2], the top-1 list is [B]. -/
theorem get_top_drinks_spec (orders : List HistEntry) (limit : Nat) :
    (∀ p ∈ buildCounter orders, p.2 = totalQty orders p.1) ∧
    get_top_drinks orders limit = (sortedNames orders).take limit ∧
    (sortedNames orders).Pairwise (priorRel orders) ∧
    (∀ s, s ∈ sortedNames orders ↔ ∃ e ∈ orders, effName e = some s) ∧
    get_top_drinks
      [⟨none, some "B", some 2, none⟩, ⟨none, some "A", some 2, none⟩] 1 =
      ["B"] :=
  ⟨fun p hp => buildCounter_count orders p hp,
   get_top_drinks_take orders limit,
   sortedNames_pairwise orders,
   fun s => mem_sortedNames orders s,
   by decide⟩

/-- Witness for C3 at the spec's tie scenario. -/
theorem get_top_drinks_spec_witness :
    get_top_drinks
      [⟨none, some "B", some 2, none⟩, ⟨none, some "A", some 2, none⟩] 1 =
      ["B"] :=
  (get_top_drinks_spec [] 0).2.2.2.2

/-- C9: the sequence returned by `get_top_drinks` has length at most the
limit; the recommendations operation returns the explicit no-history
indicator on an empty history and otherwise at most 3 drink names. -/
theorem get_top_drinks_respects_limit (orders : List HistEntry)
    (limit : Nat) (st : Option (List HistEntry)) :
    (get_top_drinks orders limit).length ≤ limit ∧
    (load_orders st = [] → recommendations st = .noHistory) ∧
    (∀ names, recommendations st = .recs names → names.length ≤ 3) := by
  have hlen : ∀ (os : List HistEntry) (n : Nat),
      (get_top_drinks os n).length ≤ n := by
    intro os n
    rw [get_top_drinks_take, List.length_take]
    exact min_le_left _ _
  refine ⟨hlen orders limit, ?_, ?_⟩
  · intro h
    rw [recommendations_eq, h]
    simp [get_top_drinks]
  · intro names h
    rw [recommendations_eq] at h
    by_cases hb : (get_top_drinks (load_orders st) 3).isEmpty
    · rw [if_pos hb] at h
      cases h
    · rw [if_neg hb] at h
      obtain rfl : names = get_top_drinks (load_orders st) 3 := by
        cases h
        rfl
      exact hlen _ _

/-- Witness for C9: empty history and a fresh store. -/
theorem get_top_drinks_respects_limit_witness :
    (get_top_drinks [] 0).length ≤ 0 ∧
    recommendations none = .noHistory := by
  have h := get_top_drinks_respects_limit [] 0 none
  exact ⟨h.1, h.2.1 rfl⟩

/-- C10: an entry whose `drinkName` is missing or empty contributes
nothing to any count — removing it does not change the result at all,
and the empty name never appears in the result — while an entry with a
missing `quantity` contributes exactly 1, the same as `quantity = 1`. -/
theorem nameless_and_default_qty (l1 l2 : List HistEntry)
    (did dn : Option String) (q cal : Option Int) (limit : Nat) :
    get_top_drinks (l1 ++ ⟨did, none, q, cal⟩ :: l2) limit =
      get_top_drinks (l1 ++ l2) limit ∧
    get_top_drinks (l1 ++ ⟨did, some "", q, cal⟩ :: l2) limit =
      get_top_drinks (l1 ++ l2) limit ∧
    get_top_drinks (l1 ++ ⟨did, dn, none, cal⟩ :: l2) limit =
      get_top_drinks (l1 ++ ⟨did, dn, some 1, cal⟩ :: l2) limit ∧
    ∀ orders : List HistEntry, "" ∉ get_top_drinks orders limit := by
  refine ⟨?_, ?_, ?_, ?_⟩
  · rw [get_top_drinks_eq, get_top_drinks_eq, buildCounter_append,
      countStep_none_name, foldl_buildCounter]
  · rw [get_top_drinks_eq, get_top_drinks_eq, buildCounter_append,
      countStep_empty_name, foldl_buildCounter]
  · rw [get_top_drinks_eq, get_top_drinks_eq, buildCounter_append,
      buildCounter_append, countStep_default_qty]
  · intro orders hmem
    rw [get_top_drinks_take] at hmem
    have hs : "" ∈ sortedNames orders := List.take_subset _ _ hmem
    obtain ⟨e, _, he⟩ := (mem_sortedNames orders "").mp hs
    exact effName_ne_empty e he

/-- Witness for C10: a nameless entry dropped from a concrete history,
and the empty name absent from a concrete result. -/
theorem nameless_and_default_qty_witness :
    get_top_drinks [⟨none, some "A", some 2, none⟩,
      ⟨some "x", none, some 7, none⟩] 3 =
      get_top_drinks [⟨none, some "A", some 2, none⟩] 3 ∧
    "" ∉ get_top_drinks [⟨none, some "", some 5, none⟩] 3 := by
  have h := nameless_and_default_qty [⟨none, some "A", some 2, none⟩] []
    (some "x") none (some 7) none 3
  exact ⟨h.1, h.2.2.2 [⟨none, some "", some 5, none⟩]⟩
